import Mathlib

/-!
Shallow embedding of the BonsaiDB local-storage core: the key/value store
operations and expiration engine (`database/keyvalue.rs`), the view
maintenance scheduler (`tasks.rs`), the integrity scanner
(`views/integrity_scanner.rs`) and the storage registry, name validation and
compression-only page codec (`storage.rs`).  Bytes are modelled as `List Nat`
(each element a `u8` value), `u64` as `Nat` with explicit `% 2^64`, `i64` as
`Int` wrapped into the signed 64-bit range, and timestamps as `Nat`.
-/

deriving instance DecidableEq for Except

/-- The subset of `bonsaidb_core::Error` (and the local crate's error enum)
that the embedded operations can surface. -/
inductive CoreError where
  | invalidDatabaseName (name : String)
  | databaseNotFound (name : String)
  | schemaAlreadyRegistered (name : String)
  | database (message : String)
  | encryptionDisabled
  | compressionFailed
  deriving DecidableEq, Repr

/-! ## Name validation (`Storage::validate_name`, storage.rs lines 493-505) -/

/-- `char::is_ascii_alphanumeric` from Rust: `0-9`, `A-Z` or `a-z`. -/
def isAsciiAlphanumeric (c : Char) : Bool :=
  (48 ≤ c.toNat && c.toNat ≤ 57) ||
    (65 ≤ c.toNat && c.toNat ≤ 90) ||
    (97 ≤ c.toNat && c.toNat ≤ 122)

/-- `Storage::validate_name`: every `(index, char)` pair produced by
`name.chars().enumerate()` must be ASCII alphanumeric, or `_` at index 0, or
`.`/`-` at an index greater than 0; otherwise `InvalidDatabaseName`. -/
def validate_name (name : String) : Except CoreError Unit :=
  if name.data.enum.all (fun p =>
      isAsciiAlphanumeric p.2 ||
        (decide (p.1 = 0) && decide (p.2 = '_')) ||
        (decide (0 < p.1) && (decide (p.2 = '.') || decide (p.2 = '-')))) then
    Except.ok ()
  else
    Except.error (CoreError.invalidDatabaseName name)

/-- The per-position character rule exactly as the specification words it,
for comparison with the implementation. -/
def specAllowedChar (i : Nat) (c : Char) : Prop :=
  isAsciiAlphanumeric c = true ∨ (i = 0 ∧ c = '_') ∨ (0 < i ∧ (c = '.' ∨ c = '-'))

instance (i : Nat) (c : Char) : Decidable (specAllowedChar i c) := by
  unfold specAllowedChar; infer_instance

/-! ## Key/value store (`database/keyvalue.rs`)

The float payload of `Numeric::Float` (`f64`) is kept abstract as a type
parameter `F`; the numeric widening helpers `as_i64_lossy`, `as_u64_lossy`
and `as_f64_lossy` live in `bonsaidb-core` (outside the sources at hand) and
are likewise taken as parameters. -/

namespace KV

/-- `bonsaidb_core::keyvalue::Numeric`, with `f64` abstracted to `F`. -/
inductive Numeric (F : Type) where
  | integer (value : Int)
  | unsignedInteger (value : Nat)
  | float (value : F)
  deriving DecidableEq

/-- `bonsaidb_core::keyvalue::Value`. -/
inductive Value (F : Type) where
  | numeric (n : Numeric F)
  | bytes (b : List Nat)
  deriving DecidableEq

/-- The serialized `Entry { value, expiration }` stored in the `kv` tree. -/
structure Entry (F : Type) where
  value : Value F
  expiration : Option Nat
  deriving DecidableEq

/-- `bonsaidb_core::keyvalue::KeyCheck`. -/
inductive KeyCheck where
  | onlyIfPresent
  | onlyIfVacant
  deriving DecidableEq

/-- `bonsaidb_core::keyvalue::KeyStatus`. -/
inductive KeyStatus where
  | inserted
  | updated
  | deleted
  | notChanged
  deriving DecidableEq

/-- `bonsaidb_core::keyvalue::Output`. -/
inductive Output (F : Type) where
  | status (s : KeyStatus)
  | value (v : Option (Value F))
  deriving DecidableEq

/-- Discriminant of a `Numeric` variant (0 = Integer, 1 = UnsignedInteger,
2 = Float). -/
def numericVariant {F : Type} : Numeric F → Nat
  | Numeric.integer _ => 0
  | Numeric.unsignedInteger _ => 1
  | Numeric.float _ => 2

/-- `full_key(namespace, key)`: the namespace (or the empty string) followed
by `.` and the key. -/
def full_key (ns : Option String) (key : String) : String :=
  match ns with
  | some n => n ++ "." ++ key
  | none => "." ++ key

/-- Wrap an integer into the signed 64-bit range. -/
def i64_wrap (z : Int) : Int := (z + 2 ^ 63) % (2 ^ 64 : Int) - 2 ^ 63

/-- `i64::wrapping_add`. -/
def i64_wrapping_add (a b : Int) : Int := i64_wrap (a + b)

/-- `i64::wrapping_sub`. -/
def i64_wrapping_sub (a b : Int) : Int := i64_wrap (a - b)

/-- `i64::saturating_add`. -/
def i64_saturating_add (a b : Int) : Int := max (-(2 ^ 63)) (min (2 ^ 63 - 1) (a + b))

/-- `i64::saturating_sub`. -/
def i64_saturating_sub (a b : Int) : Int := max (-(2 ^ 63)) (min (2 ^ 63 - 1) (a - b))

/-- `u64::wrapping_add`. -/
def u64_wrapping_add (a b : Nat) : Nat := (a + b) % 2 ^ 64

/-- `u64::wrapping_sub` (on values below `2^64`). -/
def u64_wrapping_sub (a b : Nat) : Nat := (2 ^ 64 + a - b % 2 ^ 64) % 2 ^ 64

/-- `u64::saturating_add` (on values below `2^64`). -/
def u64_saturating_add (a b : Nat) : Nat := min (a + b) (2 ^ 64 - 1)

/-- `u64::saturating_sub` (natural subtraction already saturates at zero). -/
def u64_saturating_sub (a b : Nat) : Nat := a - b

variable {F : Type}

/-- `execute_set_operation` (keyvalue.rs lines 135-196) acting on the entry
stored under the full key.  The byte round-trip through `bincode` is
modelled as the identity, and the compare-and-swap loop runs without a
concurrent writer, so the function maps the observed prior entry and the
arguments to the entry left in the tree and the returned `Output`. -/
def execute_set_operation (existing : Option (Entry F)) (value : Value F)
    (expiration : Option Nat) (keep_existing_expiration : Bool)
    (check : Option KeyCheck) (return_previous_value : Bool) :
    Option (Entry F) × Output F :=
  let should_update :=
    match check with
    | some KeyCheck.onlyIfPresent => existing.isSome
    | some KeyCheck.onlyIfVacant => existing.isNone
    | none => true
  if should_update then
    let inserted := existing.isNone
    let entryExpiration :=
      if keep_existing_expiration && !inserted then
        match existing with
        | some prev => prev.expiration
        | none => expiration
      else expiration
    let output :=
      if return_previous_value then
        Output.value (existing.map Entry.value)
      else if inserted then Output.status KeyStatus.inserted
      else Output.status KeyStatus.updated
    (some { value := value, expiration := entryExpiration }, output)
  else
    (existing, Output.status KeyStatus.notChanged)

/-- `increment` (keyvalue.rs lines 330-356); the widening conversions and the
`f64` addition are parameters. -/
def increment (as_i64_lossy : Numeric F → Bool → Int)
    (as_u64_lossy : Numeric F → Bool → Nat) (as_f64_lossy : Numeric F → F)
    (fadd : F → F → F) (existing amount : Numeric F) (saturating : Bool) :
    Numeric F :=
  match amount with
  | Numeric.integer amt =>
      let existing_value := as_i64_lossy existing saturating
      Numeric.integer
        (if saturating then i64_saturating_add existing_value amt
         else i64_wrapping_add existing_value amt)
  | Numeric.unsignedInteger amt =>
      let existing_value := as_u64_lossy existing saturating
      Numeric.unsignedInteger
        (if saturating then u64_saturating_add existing_value amt
         else u64_wrapping_add existing_value amt)
  | Numeric.float amt => Numeric.float (fadd (as_f64_lossy existing) amt)

/-- `decrement` (keyvalue.rs lines 358-384). -/
def decrement (as_i64_lossy : Numeric F → Bool → Int)
    (as_u64_lossy : Numeric F → Bool → Nat) (as_f64_lossy : Numeric F → F)
    (fsub : F → F → F) (existing amount : Numeric F) (saturating : Bool) :
    Numeric F :=
  match amount with
  | Numeric.integer amt =>
      let existing_value := as_i64_lossy existing saturating
      Numeric.integer
        (if saturating then i64_saturating_sub existing_value amt
         else i64_wrapping_sub existing_value amt)
  | Numeric.unsignedInteger amt =>
      let existing_value := as_u64_lossy existing saturating
      Numeric.unsignedInteger
        (if saturating then u64_saturating_sub existing_value amt
         else u64_wrapping_sub existing_value amt)
  | Numeric.float amt => Numeric.float (fsub (as_f64_lossy existing) amt)

/-- `execute_numeric_operation` (keyvalue.rs lines 272-328) acting on the
entry stored under the full key (single writer, identity serialization, as
for `execute_set_operation`). -/
def execute_numeric_operation (existing : Option (Entry F)) (amount : Numeric F)
    (saturating : Bool) (op : Numeric F → Numeric F → Bool → Numeric F) :
    Option (Entry F) × Except CoreError (Output F) :=
  let entry := existing.getD
    { value := Value.numeric (Numeric.unsignedInteger 0), expiration := none }
  match entry.value with
  | Value.numeric existingN =>
      let v := Value.numeric (op existingN amount saturating)
      (some { value := v, expiration := entry.expiration },
        Except.ok (Output.value (some v)))
  | Value.bytes _ =>
      (existing,
        Except.error (CoreError.database "type of stored `Value` is not `Numeric`"))

end KV

/-! ## Expiration engine (`expiration_task`, keyvalue.rs lines 438-546)

`tracked_keys: HashMap<String, Timestamp>` is modelled as an association
list, `expiration_order: VecDeque<String>` as a list with the front first.
Every iteration of the task's loop either integrates one received
`ExpirationUpdate` or performs one timeout pass that pops and deletes every
front key whose deadline has passed. -/

namespace KV

/-- `HashMap::get` on an association list. -/
def alLookup {κ ν : Type} [DecidableEq κ] (k : κ) : List (κ × ν) → Option ν
  | [] => none
  | p :: rest => if p.1 = k then some p.2 else alLookup k rest

/-- `HashMap::remove` on an association list (keys are unique, so removing
every pair with the key is removing the entry). -/
def alRemove {κ ν : Type} [DecidableEq κ] (k : κ) : List (κ × ν) → List (κ × ν)
  | [] => []
  | p :: rest => if p.1 = k then alRemove k rest else p :: alRemove k rest

/-- `HashMap::insert` on an association list: the entry replaces any entry
under the same key. -/
def alInsert {κ ν : Type} [DecidableEq κ] (k : κ) (v : ν) (l : List (κ × ν)) :
    List (κ × ν) :=
  (k, v) :: alRemove k l

/-- The expiration task's loop state. -/
structure ExpirationState where
  trackedKeys : List (String × Nat)
  expirationOrder : List String
  deriving DecidableEq

/-- Deadline of a key as the scan in the task reads it
(`tracked_keys.get(key).unwrap()`; the default is never read when the key is
in `expiration_order` and the loop invariant holds). -/
def deadlineOf (trackedKeys : List (String × Nat)) (k : String) : Nat :=
  (alLookup k trackedKeys).getD 0

/-- Position scan plus insertion from keyvalue.rs lines 515-527: walk
`expiration_order` for the first key whose deadline exceeds the new
expiration, insert there, or else push to the back. -/
def insertByDeadline (trackedKeys : List (String × Nat)) (expiration : Nat)
    (key : String) : List String → List String
  | [] => [key]
  | k :: rest =>
      if expiration < deadlineOf trackedKeys k then key :: k :: rest
      else k :: insertByDeadline trackedKeys expiration key rest

/-- Processing of one received `ExpirationUpdate` (keyvalue.rs lines
496-542). -/
def processUpdate (s : ExpirationState) (treeKey : String)
    (expiration : Option Nat) : ExpirationState :=
  match expiration with
  | some exp =>
      let order1 :=
        if (alLookup treeKey s.trackedKeys).isSome then
          s.expirationOrder.erase treeKey
        else s.expirationOrder
      { trackedKeys := alInsert treeKey exp s.trackedKeys,
        expirationOrder := insertByDeadline s.trackedKeys exp treeKey order1 }
  | none =>
      if (alLookup treeKey s.trackedKeys).isSome then
        { trackedKeys := alRemove treeKey s.trackedKeys,
          expirationOrder := s.expirationOrder.erase treeKey }
      else s

/-- The timeout branch's pop loop (keyvalue.rs lines 474-481): pop every
front key whose deadline is at or before `now`, dropping it from
`tracked_keys` and collecting it for deletion from the `kv` tree.  Returns
the remaining order, the remaining tracked map and the keys removed. -/
def popExpired (now : Nat) :
    List String → List (String × Nat) → List String × List (String × Nat) × List String
  | [], tracked => ([], tracked, [])
  | k :: rest, tracked =>
      if deadlineOf tracked k ≤ now then
        let r := popExpired now rest (alRemove k tracked)
        (r.1, r.2.1, k :: r.2.2)
      else (k :: rest, tracked, [])

/-- A timeout pass applied to the whole state, forgetting the deleted keys. -/
def timeoutPass (s : ExpirationState) (now : Nat) : ExpirationState :=
  let r := popExpired now s.expirationOrder s.trackedKeys
  { trackedKeys := r.2.1, expirationOrder := r.1 }

/-- One input consumed by the expiration task: either a received
`ExpirationUpdate` or an elapsed timeout observed at `now`. -/
inductive EngineEvent where
  | update (key : String) (expiration : Option Nat)
  | timeout (now : Nat)
  deriving DecidableEq

/-- Whether an event is an `ExpirationUpdate` that re-adds an expiration for
`k`. -/
def isSomeUpdateOf (k : String) : EngineEvent → Bool
  | EngineEvent.update key (some _) => key == k
  | _ => false

/-- One loop iteration: the next state and the keys deleted from the `kv`
tree during it. -/
def engineStep (s : ExpirationState) : EngineEvent → ExpirationState × List String
  | EngineEvent.update key expiration => (processUpdate s key expiration, [])
  | EngineEvent.timeout now =>
      let r := popExpired now s.expirationOrder s.trackedKeys
      ({ trackedKeys := r.2.1, expirationOrder := r.1 }, r.2.2)

/-- Run the task over a list of inputs, accumulating every key it deletes
from the `kv` tree. -/
def runEngine (s : ExpirationState) : List EngineEvent → ExpirationState × List String
  | [] => (s, [])
  | e :: evs =>
      let r := engineStep s e
      let r2 := runEngine r.1 evs
      (r2.1, r.2 ++ r2.2)

/-- The loop invariant of the expiration task: `expiration_order` holds
exactly the keys of `tracked_keys`, without duplicates, in non-decreasing
deadline order. -/
def EngineInv (s : ExpirationState) : Prop :=
  s.expirationOrder.Nodup ∧
    (∀ k ∈ s.expirationOrder, (alLookup k s.trackedKeys).isSome = true) ∧
    (∀ p ∈ s.trackedKeys, p.1 ∈ s.expirationOrder) ∧
    s.expirationOrder.Pairwise
      (fun a b => deadlineOf s.trackedKeys a ≤ deadlineOf s.trackedKeys b)

instance (s : ExpirationState) : Decidable (EngineInv s) := by
  unfold EngineInv; infer_instance

end KV

/-! ## View maintenance scheduler (`TaskManager::update_view_if_needed`,
tasks.rs lines 51-102)

Only the post-integrity-check part (lines 61-99) is embedded: the decision
whether to reindex and the Mapper loop.  `jobs n` is the last-mapped
transaction id returned by the `n`-th Mapper job the loop receives; the loop
is given fuel since the job outputs are unconstrained. -/

namespace Tasks

/-- The `loop` of tasks.rs lines 81-97, counting the Mapper jobs enqueued:
each iteration enqueues (or joins) one deduplicated Mapper job, receives its
last-mapped transaction id, and exits once that id reaches
`wait_for_transaction`.  Returns the number of jobs waited on, or `none` if
the fuel ran out first. -/
def mapperLoop (wait_for_transaction : Nat) (jobs : Nat → Nat) :
    Nat → Nat → Option Nat
  | 0, _ => none
  | fuel + 1, n =>
      if wait_for_transaction ≤ jobs n then some (n + 1)
      else mapperLoop wait_for_transaction jobs fuel (n + 1)

/-- `update_view_if_needed` after its integrity check: given the database's
`last_transaction_id` and the recorded `view_update_last_status` entry for
`(database, collection, view)`, returns how many Mapper jobs are enqueued
and waited on before the call returns. -/
def update_view_if_needed (last_transaction_id : Option Nat)
    (last_status : Option Nat) (jobs : Nat → Nat) (fuel : Nat) : Option Nat :=
  match last_transaction_id with
  | none => some 0
  | some current_transaction_id =>
      let needs_reindex :=
        match last_status with
        | some last_transaction_indexed =>
            decide (last_transaction_indexed < current_transaction_id)
        | none => true
      if needs_reindex then mapperLoop current_transaction_id jobs fuel 0
      else some 0

end Tasks

/-! ## Integrity scanner (`IntegrityScanner::execute`,
views/integrity_scanner.rs lines 44-157)

Key sets read by `tree_keys` are modelled as `Finset Nat` (tree keys are
unique); the persisted view-version bytes and the `u64` big-endian parse
(`from_big_endian_bytes`, defined in `bonsaidb-core`, outside the sources at
hand) stay abstract. -/

namespace Views

/-- What the scanner's single transaction writes: the view version recorded
under the view's name in the view-versions tree, and the set of document ids
set into the invalidated-docs tree. -/
structure ScanWrites where
  versionWrite : Option Nat
  invalidatedWrites : Finset Nat
  deriving DecidableEq

/-- The `missing_entries` computation (integrity_scanner.rs lines 77-99). -/
def missingEntries (documentIds documentMapIds : Finset Nat)
    (persistedVersionBytes : Option (List Nat)) (parseU64 : List Nat → Option Nat)
    (viewVersion : Nat) : Finset Nat :=
  let view_is_current_version :=
    match persistedVersionBytes with
    | some bytes =>
        match parseU64 bytes with
        | some version => decide (version = viewVersion)
        | none => false
    | none => false
  if view_is_current_version then documentIds \ documentMapIds else documentIds

/-- The blocking part of `IntegrityScanner::execute` (integrity_scanner.rs
lines 76-123): compute the missing entries and, when there are any, write
the view version and one invalidated-docs entry per missing id in a single
transaction; returns the writes and the `needs_update` flag. -/
def integrityScan (documentIds documentMapIds : Finset Nat)
    (persistedVersionBytes : Option (List Nat)) (parseU64 : List Nat → Option Nat)
    (viewVersion : Nat) : ScanWrites × Bool :=
  let missing_entries :=
    missingEntries documentIds documentMapIds persistedVersionBytes parseU64 viewVersion
  if missing_entries = ∅ then ({ versionWrite := none, invalidatedWrites := ∅ }, false)
  else ({ versionWrite := some viewVersion, invalidatedWrites := missing_entries }, true)

end Views

/-! ## Schema registry (`Storage::register_schema`, storage.rs lines 476-491)

The `StorageSchemaOpener` values are abstracted to an arbitrary type; only
which opener is stored matters. -/

namespace Registry

/-- `Storage::register_schema`: insert the opener under the schema name and
succeed only when no entry was there before (`HashMap::insert` stores the
new value in either case and returns the previous one). -/
def register_schema {Opener : Type} (name : String) (opener : Opener)
    (schemas : List (String × Opener)) :
    List (String × Opener) × Except CoreError Unit :=
  let previous := KV.alLookup name schemas
  let schemas1 := KV.alInsert name opener schemas
  match previous with
  | none => (schemas1, Except.ok ())
  | some _ => (schemas1, Except.error (CoreError.schemaAlreadyRegistered name))

end Registry

/-! ## Database deletion (`StorageInstance::delete_database`, storage.rs
lines 854-883) -/

namespace Storage

/-- `u8::to_ascii_lowercase` on one character. -/
def toAsciiLowercaseChar (c : Char) : Char :=
  if 65 ≤ c.toNat ∧ c.toNat ≤ 90 then Char.ofNat (c.toNat + 32) else c

/-- `str::to_ascii_lowercase`. -/
def toAsciiLowercase (s : String) : String :=
  String.mk (s.data.map toAsciiLowercaseChar)

/-- The storage-instance state `delete_database` touches.
`availableDatabases` maps database names to schema names, `openRoots` and
`directories` are the cached root names and the on-disk database
directories, and `adminRecords` holds the keys of the admin database's
`database::ByName` view (lowercased database names; the key derivation is
modelled from the spec, which states the admin database stores the database
records the view indexes). -/
structure StorageState where
  availableDatabases : List (String × String)
  openRoots : List String
  directories : List String
  adminRecords : List String
  deriving DecidableEq

/-- `StorageInstance::delete_database`: remove the name from
`available_databases` and `open_roots`, delete the database directory if it
exists, and only then look up the admin record under the lowercased name,
returning `DatabaseNotFound` when it is absent. -/
def delete_database (s : StorageState) (name : String) :
    StorageState × Except CoreError Unit :=
  let available1 := KV.alRemove name s.availableDatabases
  let openRoots1 := s.openRoots.filter (fun n => decide (n ≠ name))
  let directories1 :=
    if name ∈ s.directories then s.directories.filter (fun n => decide (n ≠ name))
    else s.directories
  let s1 : StorageState :=
    { availableDatabases := available1, openRoots := openRoots1,
      directories := directories1, adminRecords := s.adminRecords }
  if toAsciiLowercase name ∈ s.adminRecords then
    ({ s1 with adminRecords := s1.adminRecords.erase (toAsciiLowercase name) },
      Except.ok ())
  else (s1, Except.error (CoreError.databaseNotFound name))

end Storage

/-! ## Page codec (compression-only `nebari::Vault` impl for `TreeVault`,
storage.rs lines 1467-1511)

LZ4 block compression is an external collaborator: `lz4Compress` stands for
`lz4_flex::block::compress_into`'s output and `lz4Decompress` for
`lz4_flex::block::decompress_size_prepended` (its argument carries the
4-byte little-endian uncompressed length first). -/

namespace Codec

/-- `crate::config::Compression` (outside the sources at hand); the spec
fixes the encoding `1 = LZ4` in the flags byte. -/
inductive Compression where
  | lz4
  deriving DecidableEq

/-- `Compression::from_u8`, per the spec's `1 = LZ4` encoding. -/
def compressionFromU8 (n : Nat) : Option Compression :=
  if n = 1 then some Compression.lz4 else none

/-- `u32::to_le_bytes`. -/
def u32le (n : Nat) : List Nat :=
  [n % 256, n / 256 % 256, n / 65536 % 256, n / 16777216 % 256]

/-- `TreeVault::encrypt` with only compression available (storage.rs lines
1471-1490): payloads of at least 128 bytes under the LZ4 setting become
`b"trv" ++ [1] ++ <length LE> ++ <compressed>`, everything else is copied
through. -/
def encrypt (lz4Compress : List Nat → List Nat) (compression : Option Compression)
    (payload : List Nat) : List Nat :=
  if 128 ≤ payload.length ∧ compression = some Compression.lz4 then
    [116, 114, 118, 1] ++ u32le payload.length ++ lz4Compress payload
  else payload

/-- `TreeVault::decrypt` with encryption disabled (storage.rs lines
1492-1511): a payload carrying the 4-byte `trv` header is rejected with
`EncryptionDisabled` when bit 7 of the flags byte is set, decompressed when
the low 7 bits select LZ4, and stripped of the header otherwise; a payload
without the header passes through. -/
def decrypt (lz4Decompress : List Nat → Option (List Nat)) (payload : List Nat) :
    Except CoreError (List Nat) :=
  if 4 ≤ payload.length ∧ payload.take 3 = [116, 114, 118] then
    let header := (payload.get? 3).getD 0
    let rest := payload.drop 4
    if header.testBit 7 then Except.error CoreError.encryptionDisabled
    else
      match compressionFromU8 (header % 128) with
      | some Compression.lz4 =>
          match lz4Decompress rest with
          | some decompressed => Except.ok decompressed
          | none => Except.error CoreError.compressionFailed
      | none => Except.ok rest
  else Except.ok payload

/-- Whether a payload carries the 4-byte `trv` magic. -/
def hasTrvHeader (payload : List Nat) : Bool :=
  decide (4 ≤ payload.length) && decide (payload.take 3 = [116, 114, 118])

/-- A stand-in LZ4 compressor used only to instantiate closed statements:
the identity. -/
def lz4StubCompress (x : List Nat) : List Nat := x

/-- The matching stand-in decompressor: drop the 4-byte length prefix. -/
def lz4StubDecompress (l : List Nat) : Option (List Nat) := some (l.drop 4)

end Codec

/-! ## Shared association-list lemmas -/

namespace KV

theorem alLookup_alRemove_self {κ ν : Type} [DecidableEq κ] (k : κ)
    (l : List (κ × ν)) : alLookup k (alRemove k l) = none := by
  induction l with
  | nil => rfl
  | cons p rest ih =>
      by_cases h : p.1 = k
      · simp [alRemove, h, ih]
      · simp [alRemove, alLookup, h, ih]

theorem alLookup_alRemove_ne {κ ν : Type} [DecidableEq κ] {k k' : κ}
    (h : k' ≠ k) (l : List (κ × ν)) : alLookup k' (alRemove k l) = alLookup k' l := by
  induction l with
  | nil => rfl
  | cons p rest ih =>
      by_cases hp : p.1 = k
      · have hne : ¬p.1 = k' := fun hc => h (hc ▸ hp)
        simp only [alRemove, if_pos hp, ih, alLookup, if_neg hne]
      · by_cases hp' : p.1 = k'
        · simp only [alRemove, if_neg hp, alLookup, if_pos hp']
        · simp only [alRemove, if_neg hp, alLookup, if_neg hp', ih]

theorem alLookup_alInsert_self {κ ν : Type} [DecidableEq κ] (k : κ) (v : ν)
    (l : List (κ × ν)) : alLookup k (alInsert k v l) = some v := by
  simp [alInsert, alLookup]

theorem alLookup_alInsert_ne {κ ν : Type} [DecidableEq κ] {k k' : κ}
    (h : k' ≠ k) (v : ν) (l : List (κ × ν)) :
    alLookup k' (alInsert k v l) = alLookup k' l := by
  have : k ≠ k' := fun hkk => h hkk.symm
  simp [alInsert, alLookup, this, alLookup_alRemove_ne h]

theorem mem_alRemove_keys {κ ν : Type} [DecidableEq κ] {k : κ}
    {l : List (κ × ν)} {p : κ × ν} (hmem : p ∈ alRemove k l) : p ∈ l := by
  induction l with
  | nil => simp only [alRemove] at hmem; exact absurd hmem (List.not_mem_nil p)
  | cons q rest ih =>
      by_cases h : q.1 = k
      · simp only [alRemove, if_pos h] at hmem
        exact List.mem_cons_of_mem q (ih hmem)
      · simp only [alRemove, if_neg h, List.mem_cons] at hmem
        rcases hmem with h1 | h2
        · exact h1 ▸ List.mem_cons_self q rest
        · exact List.mem_cons_of_mem q (ih h2)

end KV

/-! ## C3: database name validation -/

/-- C3 counterexample: the claim says the empty name is invalid and rejected
with `InvalidDatabaseName`, but `Storage::validate_name` iterates
`name.chars().enumerate()` with `all`, which is vacuously true on the empty
string, so the empty name is accepted. -/
theorem c3_empty_name_accepted : validate_name "" = Except.ok () := by decide

/-- C3 (amended): name validation accepts exactly the names in which every
character at index `i` is ASCII alphanumeric, or `_` at index 0, or `.`/`-`
at index greater than 0 — the empty name vacuously among them — and rejects
every other name with `InvalidDatabaseName`. -/
theorem c3_validate_name_amended (name : String) :
    (validate_name name = Except.ok () ↔
      ∀ i (h : i < name.data.length), specAllowedChar i name.data[i]) ∧
    (validate_name name ≠ Except.ok () →
      validate_name name = Except.error (CoreError.invalidDatabaseName name)) := by
  have key : (name.data.enum.all (fun p =>
      isAsciiAlphanumeric p.2 ||
        (decide (p.1 = 0) && decide (p.2 = '_')) ||
        (decide (0 < p.1) && (decide (p.2 = '.') || decide (p.2 = '-')))) = true) ↔
      ∀ i (h : i < name.data.length), specAllowedChar i name.data[i] := by
    rw [List.all_eq_true, List.forall_mem_enum]
    refine forall_congr' fun i => forall_congr' fun h => ?_
    simp [specAllowedChar, Bool.or_eq_true, Bool.and_eq_true, decide_eq_true_eq,
      or_assoc]
  constructor
  · unfold validate_name
    split
    · rename_i hc
      exact iff_of_true rfl (key.mp hc)
    · rename_i hc
      refine iff_of_false (by simp) fun hall => hc (key.mpr hall)
  · unfold validate_name
    split
    · intro hne; exact absurd rfl hne
    · intro _; rfl

/-- C3 witness: the amended theorem applied to the repository's own test
vectors. -/
theorem c3_validate_name_witness :
    validate_name "-alpha" ≠ Except.ok () ∧
      validate_name "-alpha" = Except.error (CoreError.invalidDatabaseName "-alpha") :=
  ⟨by decide, (c3_validate_name_amended "-alpha").2 (by decide)⟩

/-! ## C9: schema registration -/

/-- C9 counterexample: after a first registration of `"s"` with opener `1`,
a second `register_schema` call with opener `2` returns
`SchemaAlreadyRegistered` — but `HashMap::insert` has already replaced the
stored opener, so the registry entry is `2`, not the first registration's
`1` as the claim states. -/
theorem c9_register_replaces_counterexample :
    (Registry.register_schema "s" (2 : Nat) (Registry.register_schema "s" (1 : Nat) []).1).2 =
        Except.error (CoreError.schemaAlreadyRegistered "s") ∧
      KV.alLookup "s"
          (Registry.register_schema "s" (2 : Nat) (Registry.register_schema "s" (1 : Nat) []).1).1 =
        some 2 ∧ (2 : Nat) ≠ 1 := by decide

/-- C9 (amended): a second `register_schema` call for an already-registered
name returns `SchemaAlreadyRegistered`, but the failed call still replaces
the registry entry, which afterwards holds the most recent call's opener
rather than the first successful registration's. -/
theorem c9_register_schema_amended {Opener : Type} (name : String)
    (opener : Opener) (schemas : List (String × Opener)) :
    (KV.alLookup name schemas = none →
      Registry.register_schema name opener schemas =
        (KV.alInsert name opener schemas, Except.ok ())) ∧
    (∀ previous, KV.alLookup name schemas = some previous →
      (Registry.register_schema name opener schemas).2 =
          Except.error (CoreError.schemaAlreadyRegistered name) ∧
        KV.alLookup name (Registry.register_schema name opener schemas).1 =
          some opener) := by
  constructor
  · intro h
    simp [Registry.register_schema, h]
  · intro previous h
    simp [Registry.register_schema, h, KV.alLookup_alInsert_self]

/-- C9 witness: the amended theorem at a concrete occupied registry. -/
theorem c9_register_schema_witness :
    (Registry.register_schema "a" (5 : Nat) [("a", (3 : Nat))]).2 =
        Except.error (CoreError.schemaAlreadyRegistered "a") ∧
      KV.alLookup "a" (Registry.register_schema "a" (5 : Nat) [("a", (3 : Nat))]).1 =
        some 5 :=
  (c9_register_schema_amended "a" 5 [("a", 3)]).2 3 (by decide)

/-! ## C10: delete_database side effects -/

/-- C10: `delete_database` removes the name from `available_databases` and
`open_roots` and deletes the database directory before it looks for the
admin record, so these side effects stand in the new state whatever the
result — in particular the `DatabaseNotFound` error (returned exactly when
no admin record exists under the lowercased name) is not side-effect
free. -/
theorem c10_delete_database_spec (s : Storage.StorageState) (name : String) :
    KV.alLookup name (Storage.delete_database s name).1.availableDatabases = none ∧
      name ∉ (Storage.delete_database s name).1.openRoots ∧
      name ∉ (Storage.delete_database s name).1.directories ∧
      ((Storage.delete_database s name).2 =
          Except.error (CoreError.databaseNotFound name) ↔
        Storage.toAsciiLowercase name ∉ s.adminRecords) := by
  by_cases hadmin : Storage.toAsciiLowercase name ∈ s.adminRecords <;>
    by_cases hdir : name ∈ s.directories <;>
      simp [Storage.delete_database, hadmin, hdir, KV.alLookup_alRemove_self,
        List.mem_filter]

/-- C10 witness: the theorem at a concrete state where the admin record is
absent while the registry, cache and directory entries are present. -/
theorem c10_delete_database_witness :
    KV.alLookup "db"
        (Storage.delete_database ⟨[("db", "s")], ["db"], ["db"], []⟩ "db").1.availableDatabases =
        none ∧
      "db" ∉ (Storage.delete_database ⟨[("db", "s")], ["db"], ["db"], []⟩ "db").1.openRoots ∧
      "db" ∉ (Storage.delete_database ⟨[("db", "s")], ["db"], ["db"], []⟩ "db").1.directories ∧
      ((Storage.delete_database ⟨[("db", "s")], ["db"], ["db"], []⟩ "db").2 =
          Except.error (CoreError.databaseNotFound "db") ↔
        Storage.toAsciiLowercase "db" ∉ ([] : List String)) :=
  c10_delete_database_spec ⟨[("db", "s")], ["db"], ["db"], []⟩ "db"

/-! ## C2: update_view_if_needed -/

namespace Tasks

theorem mapperLoop_sound (wait_for_transaction : Nat) (jobs : Nat → Nat) :
    ∀ fuel n k, mapperLoop wait_for_transaction jobs fuel n = some k →
      n < k ∧ wait_for_transaction ≤ jobs (k - 1) ∧
        ∀ i, n ≤ i → i < k - 1 → jobs i < wait_for_transaction := by
  intro fuel
  induction fuel with
  | zero => intro n k h; exact absurd h (by simp [mapperLoop])
  | succ fuel ih =>
      intro n k h
      by_cases hj : wait_for_transaction ≤ jobs n
      · simp only [mapperLoop, if_pos hj, Option.some.injEq] at h
        subst h
        refine ⟨Nat.lt_succ_self n, by simpa using hj, ?_⟩
        intro i hni hik
        omega
      · simp only [mapperLoop, if_neg hj] at h
        obtain ⟨hlt, hend, hmid⟩ := ih (n + 1) k h
        refine ⟨by omega, hend, ?_⟩
        intro i hni hik
        rcases Nat.eq_or_lt_of_le hni with rfl | hlt2
        · omega
        · exact hmid i (by omega) hik

theorem mapperLoop_complete (wait_for_transaction : Nat) (jobs : Nat → Nat) :
    ∀ fuel n j, j < fuel → wait_for_transaction ≤ jobs (n + j) →
      mapperLoop wait_for_transaction jobs fuel n ≠ none := by
  intro fuel
  induction fuel with
  | zero => intro n j hj; omega
  | succ fuel ih =>
      intro n j hj hw
      by_cases h0 : wait_for_transaction ≤ jobs n
      · simp [mapperLoop, if_pos h0]
      · rcases j with _ | j
        · exact absurd (by simpa using hw) h0
        · simp only [mapperLoop, if_neg h0]
          exact ih (n + 1) j (by omega) (by
            have : n + 1 + j = n + (j + 1) := by omega
            rw [this]; exact hw)

/-- C2: `update_view_if_needed` enqueues no Mapper job when the database has
no transaction id, or when the recorded last-indexed transaction id is at
least the current one; otherwise it loops over deduplicated Mapper jobs,
stopping exactly at the first job whose returned last-mapped transaction id
reaches the transaction id observed at entry (and such a job, when one
exists within the fuel, is reached). -/
theorem c2_update_view_spec (last_status : Option Nat) (jobs : Nat → Nat)
    (fuel : Nat) :
    (update_view_if_needed none last_status jobs fuel = some 0) ∧
      (∀ t s, last_status = some s → t ≤ s →
        update_view_if_needed (some t) last_status jobs fuel = some 0) ∧
      (∀ t k, (last_status = none ∨ ∃ s, last_status = some s ∧ s < t) →
        update_view_if_needed (some t) last_status jobs fuel = some k →
          1 ≤ k ∧ t ≤ jobs (k - 1) ∧ ∀ i, i < k - 1 → jobs i < t) ∧
      (∀ t j, (last_status = none ∨ ∃ s, last_status = some s ∧ s < t) →
        j < fuel → t ≤ jobs j →
          update_view_if_needed (some t) last_status jobs fuel ≠ none) := by
  refine ⟨rfl, ?_, ?_, ?_⟩
  · intro t s hs hts
    subst hs
    simp [update_view_if_needed, Nat.not_lt_of_le hts]
  · intro t k hneed h
    have hloop : mapperLoop t jobs fuel 0 = some k := by
      rcases hneed with hnone | ⟨s, hs, hst⟩
      · simpa [update_view_if_needed, hnone] using h
      · subst hs
        simpa [update_view_if_needed, hst] using h
    obtain ⟨h0, hend, hmid⟩ := mapperLoop_sound t jobs fuel 0 k hloop
    exact ⟨h0, hend, fun i hik => hmid i (Nat.zero_le i) hik⟩
  · intro t j hneed hj hw
    have : mapperLoop t jobs fuel 0 ≠ none :=
      mapperLoop_complete t jobs fuel 0 j hj (by simpa using hw)
    rcases hneed with hnone | ⟨s, hs, hst⟩
    · simpa [update_view_if_needed, hnone] using this
    · subst hs
      simpa [update_view_if_needed, hst] using this

/-- C2 witness: with the last indexed transaction behind the current one and
the second Mapper job reaching the watermark, the loop runs exactly two
jobs. -/
theorem c2_update_view_witness :
    ((some 4 : Option Nat) = none ∨ ∃ s, (some 4 : Option Nat) = some s ∧ s < 6) ∧
      1 ≤ 2 ∧ 6 ≤ (fun n => if n = 0 then 5 else 7) (2 - 1) ∧
      ∀ i, i < 2 - 1 → (fun n => if n = 0 then 5 else 7) i < 6 :=
  ⟨Or.inr ⟨4, rfl, by omega⟩,
    (c2_update_view_spec (some 4) (fun n => if n = 0 then 5 else 7) 10).2.2.1 6 2
      (Or.inr ⟨4, rfl, by omega⟩) (by decide)⟩

end Tasks

/-! ## C8: integrity scanner -/

/-- C8: the integrity scanner takes `missing` to be the collection's ids
minus the document map's ids exactly when the persisted view version parses
to the view's current version, and all collection ids otherwise (no
persisted version, parse failure, or version mismatch); a non-empty
`missing` is written as the current version plus one invalidated-docs entry
per missing id in the single transaction, and an empty `missing` writes
nothing. -/
theorem c8_integrity_scan_spec (documentIds documentMapIds : Finset Nat)
    (persisted : Option (List Nat)) (parseU64 : List Nat → Option Nat)
    (viewVersion : Nat) :
    (∀ bytes, persisted = some bytes → parseU64 bytes = some viewVersion →
      Views.missingEntries documentIds documentMapIds persisted parseU64 viewVersion =
        documentIds \ documentMapIds) ∧
      (persisted = none →
        Views.missingEntries documentIds documentMapIds persisted parseU64 viewVersion =
          documentIds) ∧
      (∀ bytes, persisted = some bytes → parseU64 bytes = none →
        Views.missingEntries documentIds documentMapIds persisted parseU64 viewVersion =
          documentIds) ∧
      (∀ bytes v, persisted = some bytes → parseU64 bytes = some v → v ≠ viewVersion →
        Views.missingEntries documentIds documentMapIds persisted parseU64 viewVersion =
          documentIds) ∧
      (Views.missingEntries documentIds documentMapIds persisted parseU64 viewVersion ≠ ∅ →
        Views.integrityScan documentIds documentMapIds persisted parseU64 viewVersion =
          ({ versionWrite := some viewVersion,
             invalidatedWrites :=
               Views.missingEntries documentIds documentMapIds persisted parseU64
                 viewVersion }, true)) ∧
      (Views.missingEntries documentIds documentMapIds persisted parseU64 viewVersion = ∅ →
        Views.integrityScan documentIds documentMapIds persisted parseU64 viewVersion =
          ({ versionWrite := none, invalidatedWrites := ∅ }, false)) := by
  refine ⟨?_, ?_, ?_, ?_, ?_, ?_⟩
  · intro bytes hb hp
    subst hb
    simp [Views.missingEntries, hp]
  · intro hb
    subst hb
    simp [Views.missingEntries]
  · intro bytes hb hp
    subst hb
    simp [Views.missingEntries, hp]
  · intro bytes v hb hp hv
    subst hb
    simp [Views.missingEntries, hp, hv]
  · intro hne
    simp [Views.integrityScan, hne]
  · intro he
    simp [Views.integrityScan, he]

/-- C8 witness: a stale view version invalidates every document id. -/
theorem c8_integrity_scan_witness :
    Views.missingEntries {1, 2} {1} (some [9]) (fun _ => some 9) 3 = {1, 2} ∧
      Views.integrityScan {1, 2} {1} (some [9]) (fun _ => some 9) 3 =
        ({ versionWrite := some 3, invalidatedWrites := {1, 2} }, true) :=
  ⟨(c8_integrity_scan_spec {1, 2} {1} (some [9]) (fun _ => some 9) 3).2.2.2.1 [9] 9
      rfl rfl (by decide),
    (c8_integrity_scan_spec {1, 2} {1} (some [9]) (fun _ => some 9) 3).2.2.2.2.1
      (by decide)⟩

/-! ## C1: KV set operation -/

/-- C1: a set whose check fails (OnlyIfVacant against a stored entry, or
OnlyIfPresent against a vacant key) returns `Status(NotChanged)` and leaves
the stored entry untouched; otherwise the new entry is stored, carrying the
prior entry's expiration when `keep_existing_expiration` is set and a prior
entry existed, and the call returns `Value(previous)` under
`return_previous_value`, else `Status(Inserted)` for a vacant key, else
`Status(Updated)`. -/
theorem c1_set_operation_spec {F : Type} (existing : Option (KV.Entry F))
    (value : KV.Value F) (expiration : Option Nat)
    (keep_existing_expiration : Bool) (check : Option KV.KeyCheck)
    (return_previous_value : Bool) :
    (((check = some KV.KeyCheck.onlyIfVacant ∧ existing.isSome = true) ∨
        (check = some KV.KeyCheck.onlyIfPresent ∧ existing.isSome = false)) →
      KV.execute_set_operation existing value expiration keep_existing_expiration
          check return_previous_value =
        (existing, KV.Output.status KV.KeyStatus.notChanged)) ∧
    (¬((check = some KV.KeyCheck.onlyIfVacant ∧ existing.isSome = true) ∨
        (check = some KV.KeyCheck.onlyIfPresent ∧ existing.isSome = false)) →
      KV.execute_set_operation existing value expiration keep_existing_expiration
          check return_previous_value =
        (some { value := value,
                expiration :=
                  if keep_existing_expiration = true ∧ existing.isSome = true then
                    existing.elim expiration KV.Entry.expiration
                  else expiration },
          if return_previous_value = true then
            KV.Output.value (existing.map KV.Entry.value)
          else if existing.isSome = true then KV.Output.status KV.KeyStatus.updated
          else KV.Output.status KV.KeyStatus.inserted)) := by
  constructor
  · rintro (⟨hc, hs⟩ | ⟨hc, hs⟩) <;> subst hc <;> cases existing <;>
      simp_all [KV.execute_set_operation]
  · intro hok
    cases existing with
    | none =>
        rcases check with _ | ck
        · cases keep_existing_expiration <;> cases return_previous_value <;>
            simp [KV.execute_set_operation]
        · cases ck
          · exact absurd (Or.inr ⟨rfl, rfl⟩) hok
          · cases keep_existing_expiration <;> cases return_previous_value <;>
              simp [KV.execute_set_operation]
    | some prev =>
        rcases check with _ | ck
        · cases keep_existing_expiration <;> cases return_previous_value <;>
            simp [KV.execute_set_operation, Option.elim]
        · cases ck
          · cases keep_existing_expiration <;> cases return_previous_value <;>
              simp [KV.execute_set_operation, Option.elim]
          · exact absurd (Or.inl ⟨rfl, rfl⟩) hok

/-- C1 witness: overwriting a stored entry with `keep_existing_expiration`
and `return_previous_value` keeps the old deadline and returns the old
value. -/
theorem c1_set_operation_witness :
    KV.execute_set_operation (F := Unit)
        (some { value := KV.Value.bytes [1], expiration := some 7 })
        (KV.Value.bytes [2]) (some 9) true none true =
      (some { value := KV.Value.bytes [2], expiration := some 7 },
        KV.Output.value (some (KV.Value.bytes [1]))) := by
  have h := (c1_set_operation_spec (F := Unit)
      (some { value := KV.Value.bytes [1], expiration := some 7 })
      (KV.Value.bytes [2]) (some 9) true none true).2 (by simp)
  simpa using h

/-! ## C5: KV increment/decrement -/

/-- C5: a missing entry is treated as `UnsignedInteger(0)`; a stored
`Bytes` value fails with the typed `Database` error and leaves the entry
unchanged; a stored `Numeric` is combined with the amount — widened per the
amount's variant and added/subtracted with the saturating or wrapping
64-bit operation, plain addition/subtraction for floats — and the result,
of the amount's variant, is stored (keeping the entry's expiration) and
returned as `Value`. -/
theorem c5_numeric_operation_spec {F : Type}
    (as_i64_lossy : KV.Numeric F → Bool → Int)
    (as_u64_lossy : KV.Numeric F → Bool → Nat) (as_f64_lossy : KV.Numeric F → F)
    (fadd fsub : F → F → F) (amount : KV.Numeric F) (saturating : Bool) :
    (∀ op, KV.execute_numeric_operation (F := F) none amount saturating op =
      (some { value := KV.Value.numeric (op (KV.Numeric.unsignedInteger 0) amount saturating),
              expiration := none },
        Except.ok (KV.Output.value
          (some (KV.Value.numeric (op (KV.Numeric.unsignedInteger 0) amount saturating)))))) ∧
    (∀ op (b : List Nat) (xp : Option Nat),
      KV.execute_numeric_operation (some { value := KV.Value.bytes b, expiration := xp })
          amount saturating op =
        (some { value := KV.Value.bytes b, expiration := xp },
          Except.error (CoreError.database "type of stored `Value` is not `Numeric`"))) ∧
    (∀ op (ex : KV.Numeric F) (xp : Option Nat),
      KV.execute_numeric_operation (some { value := KV.Value.numeric ex, expiration := xp })
          amount saturating op =
        (some { value := KV.Value.numeric (op ex amount saturating), expiration := xp },
          Except.ok (KV.Output.value (some (KV.Value.numeric (op ex amount saturating)))))) ∧
    (∀ ex : KV.Numeric F,
      KV.increment as_i64_lossy as_u64_lossy as_f64_lossy fadd ex amount saturating =
        match amount with
        | KV.Numeric.integer amt =>
            KV.Numeric.integer
              (if saturating then KV.i64_saturating_add (as_i64_lossy ex saturating) amt
               else KV.i64_wrapping_add (as_i64_lossy ex saturating) amt)
        | KV.Numeric.unsignedInteger amt =>
            KV.Numeric.unsignedInteger
              (if saturating then KV.u64_saturating_add (as_u64_lossy ex saturating) amt
               else KV.u64_wrapping_add (as_u64_lossy ex saturating) amt)
        | KV.Numeric.float amt => KV.Numeric.float (fadd (as_f64_lossy ex) amt)) ∧
    (∀ ex : KV.Numeric F,
      KV.decrement as_i64_lossy as_u64_lossy as_f64_lossy fsub ex amount saturating =
        match amount with
        | KV.Numeric.integer amt =>
            KV.Numeric.integer
              (if saturating then KV.i64_saturating_sub (as_i64_lossy ex saturating) amt
               else KV.i64_wrapping_sub (as_i64_lossy ex saturating) amt)
        | KV.Numeric.unsignedInteger amt =>
            KV.Numeric.unsignedInteger
              (if saturating then KV.u64_saturating_sub (as_u64_lossy ex saturating) amt
               else KV.u64_wrapping_sub (as_u64_lossy ex saturating) amt)
        | KV.Numeric.float amt => KV.Numeric.float (fsub (as_f64_lossy ex) amt)) ∧
    (∀ ex : KV.Numeric F,
      KV.numericVariant
          (KV.increment as_i64_lossy as_u64_lossy as_f64_lossy fadd ex amount saturating) =
        KV.numericVariant amount ∧
      KV.numericVariant
          (KV.decrement as_i64_lossy as_u64_lossy as_f64_lossy fsub ex amount saturating) =
        KV.numericVariant amount) := by
  refine ⟨fun op => rfl, fun op b xp => rfl, fun op ex xp => rfl, ?_, ?_, ?_⟩
  · intro ex; cases amount <;> rfl
  · intro ex; cases amount <;> rfl
  · intro ex
    constructor <;> cases amount <;> rfl

/-- C5 witness: an unsigned wrapping increment of a stored value (the
conversions instantiated trivially over a unit float type). -/
theorem c5_numeric_operation_witness :
    KV.execute_numeric_operation (F := Unit)
        (some { value := KV.Value.bytes [3], expiration := some 2 })
        (KV.Numeric.unsignedInteger 1) false
        (KV.increment (fun _ _ => 0) (fun _ _ => 0) (fun _ => ()) (fun _ _ => ())) =
      (some { value := KV.Value.bytes [3], expiration := some 2 },
        Except.error (CoreError.database "type of stored `Value` is not `Numeric`")) :=
  (c5_numeric_operation_spec (fun _ _ => 0) (fun _ _ => 0) (fun _ => ())
      (fun _ _ => ()) (fun _ _ => ()) (KV.Numeric.unsignedInteger 1) false).2.1
    (KV.increment (fun _ _ => 0) (fun _ _ => 0) (fun _ => ()) (fun _ _ => ())) [3] (some 2)

/-! ## C4: page codec round-trip -/

set_option maxRecDepth 4000 in
/-- C4 counterexample: a 127-byte payload that itself begins with the
4-byte `trv` magic and the encryption flag bit.  Being below 128 bytes it
is passed through `encrypt` unchanged, and `decrypt` then misreads the
payload's own first bytes as a codec header, failing with
`EncryptionDisabled` instead of returning the payload — so
`decrypt(encrypt(x)) == x` does not hold for every payload with
`|x| = 127`.  (The codec functions are instantiated with the stand-in LZ4
pair, which this input never reaches: `encrypt` does not compress below 128
bytes and `decrypt` fails before decompressing.) -/
theorem c4_roundtrip_counterexample :
    (116 :: 114 :: 118 :: 128 :: List.replicate 123 0).length = 127 ∧
      Codec.encrypt Codec.lz4StubCompress (some Codec.Compression.lz4)
          (116 :: 114 :: 118 :: 128 :: List.replicate 123 0) =
        116 :: 114 :: 118 :: 128 :: List.replicate 123 0 ∧
      Codec.decrypt Codec.lz4StubDecompress
          (116 :: 114 :: 118 :: 128 :: List.replicate 123 0) =
        Except.error CoreError.encryptionDisabled := by
  refine ⟨by decide, ?_, by decide⟩
  have hlen : ¬(128 ≤ (116 :: 114 :: 118 :: 128 :: List.replicate 123 0).length ∧
      (some Codec.Compression.lz4 : Option Codec.Compression) =
        some Codec.Compression.lz4) := by
    intro h
    have := h.1
    simp [List.length_replicate] at this
  unfold Codec.encrypt
  rw [if_neg hlen]

/-- C4 (amended): with compression enabled and encryption disabled,
`encrypt` never compresses payloads below 128 bytes;
`decrypt(encrypt(x)) == x` holds for `|x| ∈ {0, 127, 128, 4096, 2^20}`
provided a sub-128-byte payload does not itself begin with the 4-byte `trv`
magic (the counterexample shows the proviso is necessary); and decrypting
any payload that carries the `trv` header with the encryption bit (bit 7 of
the flags byte) set fails with `EncryptionDisabled`.  `lz4Decompress`
inverting the size-prepended `lz4Compress` output is the assumed contract
of the external LZ4 collaborator. -/
theorem c4_codec_amended (lz4Compress : List Nat → List Nat)
    (lz4Decompress : List Nat → Option (List Nat))
    (hlz4 : ∀ x : List Nat,
      lz4Decompress (Codec.u32le x.length ++ lz4Compress x) = some x)
    (x : List Nat)
    (hsize : x.length = 0 ∨ x.length = 127 ∨ x.length = 128 ∨
      x.length = 4096 ∨ x.length = 1048576) :
    (∀ y : List Nat, y.length < 128 →
      Codec.encrypt lz4Compress (some Codec.Compression.lz4) y = y) ∧
      ((x.length < 128 → Codec.hasTrvHeader x = false) →
        Codec.decrypt lz4Decompress
            (Codec.encrypt lz4Compress (some Codec.Compression.lz4) x) =
          Except.ok x) ∧
      (∀ p : List Nat, Codec.hasTrvHeader p = true →
        Nat.testBit ((p.get? 3).getD 0) 7 = true →
          Codec.decrypt lz4Decompress p = Except.error CoreError.encryptionDisabled) := by
  have encrypt_small : ∀ y : List Nat, y.length < 128 →
      Codec.encrypt lz4Compress (some Codec.Compression.lz4) y = y := by
    intro y hy
    have hc : ¬(128 ≤ y.length ∧ (some Codec.Compression.lz4 : Option Codec.Compression) =
        some Codec.Compression.lz4) := fun h => absurd h.1 (by omega)
    unfold Codec.encrypt
    rw [if_neg hc]
  refine ⟨encrypt_small, ?_, ?_⟩
  · intro hnotrv
    by_cases hlen : x.length < 128
    · rw [encrypt_small x hlen]
      have hhdr := hnotrv hlen
      have : ¬(4 ≤ x.length ∧ x.take 3 = [116, 114, 118]) := by
        intro hc
        simp only [Codec.hasTrvHeader, Bool.and_eq_true, decide_eq_true_eq] at hhdr
        rcases hc with ⟨h1, h2⟩
        rcases Bool.and_eq_false_iff.mp hhdr with h3 | h3 <;>
          simp_all [decide_eq_true_eq]
      simp [Codec.decrypt, this]
    · have h128 : 128 ≤ x.length := by omega
      have henc : Codec.encrypt lz4Compress (some Codec.Compression.lz4) x =
          [116, 114, 118, 1] ++ Codec.u32le x.length ++ lz4Compress x := by
        simp [Codec.encrypt, h128]
      rw [henc]
      have hrest : ([116, 114, 118, 1] ++ Codec.u32le x.length ++ lz4Compress x).drop 4 =
          Codec.u32le x.length ++ lz4Compress x := by
        simp [Codec.u32le]
      have hcond : 4 ≤ ([116, 114, 118, 1] ++ Codec.u32le x.length ++ lz4Compress x).length ∧
          ([116, 114, 118, 1] ++ Codec.u32le x.length ++ lz4Compress x).take 3 =
            [116, 114, 118] := by
        constructor
        · simp
        · rfl
      rw [Codec.decrypt, if_pos hcond]
      show (if Nat.testBit 1 7 = true then
          (Except.error CoreError.encryptionDisabled : Except CoreError (List Nat))
        else
          match Codec.compressionFromU8 (1 % 128) with
          | some Codec.Compression.lz4 =>
              match lz4Decompress (Codec.u32le x.length ++ lz4Compress x) with
              | some decompressed => Except.ok decompressed
              | none => Except.error CoreError.compressionFailed
          | none => Except.ok (Codec.u32le x.length ++ lz4Compress x)) =
        Except.ok x
      rw [if_neg (by decide : ¬(Nat.testBit 1 7 = true))]
      rw [hlz4 x]
      rfl
  · intro p hhdr hbit
    simp only [Codec.hasTrvHeader, Bool.and_eq_true, decide_eq_true_eq] at hhdr
    rw [Codec.decrypt, if_pos hhdr, if_pos hbit]

/-- C4 witness: the amended theorem at a 128-byte payload with the stand-in
LZ4 pair (which satisfies the size-prepended round-trip contract). -/
theorem c4_codec_witness :
    Codec.decrypt Codec.lz4StubDecompress
        (Codec.encrypt Codec.lz4StubCompress (some Codec.Compression.lz4)
          (List.replicate 128 7)) =
      Except.ok (List.replicate 128 7) := by
  have hrt : ∀ x : List Nat,
      Codec.lz4StubDecompress (Codec.u32le x.length ++ Codec.lz4StubCompress x) =
        some x := by
    intro x; rfl
  exact (c4_codec_amended Codec.lz4StubCompress Codec.lz4StubDecompress hrt
      (List.replicate 128 7) (by simp)).2.1 (by intro h; simp at h)

/-! ## Expiration-engine lemmas (towards C6 and C7) -/

namespace KV

theorem mem_alRemove_ne {κ ν : Type} [DecidableEq κ] {k : κ} {l : List (κ × ν)}
    {p : κ × ν} (hmem : p ∈ alRemove k l) : p.1 ≠ k := by
  induction l with
  | nil => simp [alRemove] at hmem
  | cons q rest ih =>
      by_cases h : q.1 = k
      · simp only [alRemove, if_pos h] at hmem
        exact ih hmem
      · simp only [alRemove, if_neg h, List.mem_cons] at hmem
        rcases hmem with rfl | h2
        · exact h
        · exact ih h2

theorem alLookup_none_alRemove {κ ν : Type} [DecidableEq κ] {k : κ} (k' : κ)
    {l : List (κ × ν)} (h : alLookup k l = none) :
    alLookup k (alRemove k' l) = none := by
  by_cases hk : k = k'
  · subst hk
    exact alLookup_alRemove_self k l
  · rw [alLookup_alRemove_ne hk]
    exact h

theorem mem_insertByDeadline {tk : List (String × Nat)} {e : Nat} {key x : String} :
    ∀ {l : List String}, x ∈ insertByDeadline tk e key l ↔ x = key ∨ x ∈ l := by
  intro l
  induction l with
  | nil => simp [insertByDeadline]
  | cons k rest ih =>
      by_cases h : e < deadlineOf tk k
      · simp only [insertByDeadline, if_pos h, List.mem_cons]
      · simp only [insertByDeadline, if_neg h, List.mem_cons, ih]
        tauto

theorem insertByDeadline_nodup {tk : List (String × Nat)} {e : Nat} {key : String} :
    ∀ {l : List String}, key ∉ l → l.Nodup → (insertByDeadline tk e key l).Nodup := by
  intro l
  induction l with
  | nil =>
      intro _ _
      simp [insertByDeadline]
  | cons k rest ih =>
      intro hkey hnd
      rcases List.nodup_cons.mp hnd with ⟨hk, hrest⟩
      by_cases h : e < deadlineOf tk k
      · simp only [insertByDeadline, if_pos h]
        exact List.nodup_cons.mpr ⟨hkey, hnd⟩
      · simp only [insertByDeadline, if_neg h]
        refine List.nodup_cons.mpr
          ⟨?_, ih (fun hc => hkey (List.mem_cons_of_mem k hc)) hrest⟩
        intro hc
        rcases mem_insertByDeadline.mp hc with heq | hc2
        · subst heq
          exact hkey (List.mem_cons_self k rest)
        · exact hk hc2

theorem insertByDeadline_pairwise (tk tk' : List (String × Nat)) (e : Nat)
    (key : String) :
    ∀ (l : List String), deadlineOf tk' key = e →
      (∀ k ∈ l, deadlineOf tk' k = deadlineOf tk k) →
      l.Pairwise (fun a b => deadlineOf tk a ≤ deadlineOf tk b) →
      (insertByDeadline tk e key l).Pairwise
        (fun a b => deadlineOf tk' a ≤ deadlineOf tk' b) := by
  intro l
  induction l with
  | nil =>
      intro _ _ _
      simp [insertByDeadline]
  | cons k rest ih =>
      intro hkey hagree hp
      rcases List.pairwise_cons.mp hp with ⟨hk, hrest⟩
      by_cases h : e < deadlineOf tk k
      · simp only [insertByDeadline, if_pos h]
        refine List.pairwise_cons.mpr ⟨?_, ?_⟩
        · intro b hb
          rcases List.mem_cons.mp hb with heq | hb2
          · rw [heq, hkey, hagree k (List.mem_cons_self k rest)]
            exact le_of_lt h
          · rw [hkey, hagree b (List.mem_cons_of_mem k hb2)]
            exact le_of_lt (lt_of_lt_of_le h (hk b hb2))
        · refine List.Pairwise.imp_of_mem ?_ hp
          intro a b ha hb hab
          rw [hagree a ha, hagree b hb]
          exact hab
      · simp only [insertByDeadline, if_neg h]
        have hdk : deadlineOf tk k ≤ e := Nat.le_of_not_lt h
        refine List.pairwise_cons.mpr
          ⟨?_, ih hkey (fun x hx => hagree x (List.mem_cons_of_mem k hx)) hrest⟩
        intro b hb
        rcases mem_insertByDeadline.mp hb with heq | hb2
        · subst heq
          rw [hagree k (List.mem_cons_self k rest), hkey]
          exact hdk
        · rw [hagree k (List.mem_cons_self k rest),
            hagree b (List.mem_cons_of_mem k hb2)]
          exact hk b hb2

theorem insertByDeadline_split (tk : List (String × Nat)) (e : Nat) (key : String) :
    ∀ (l : List String),
      l.Pairwise (fun a b => deadlineOf tk a ≤ deadlineOf tk b) →
      ∃ i, i ≤ l.length ∧
        insertByDeadline tk e key l = l.take i ++ key :: l.drop i ∧
        (∀ x ∈ l.take i, deadlineOf tk x ≤ e) ∧
        (∀ x ∈ l.drop i, e < deadlineOf tk x) := by
  intro l
  induction l with
  | nil =>
      intro _
      exact ⟨0, by simp, by simp [insertByDeadline], by simp, by simp⟩
  | cons k rest ih =>
      intro hp
      rcases List.pairwise_cons.mp hp with ⟨hk, hrest⟩
      by_cases h : e < deadlineOf tk k
      · refine ⟨0, by simp, by simp [insertByDeadline, if_pos h], by simp, ?_⟩
        intro x hx
        rcases List.mem_cons.mp (by simpa using hx) with heq | hx2
        · rw [heq]
          exact h
        · exact lt_of_lt_of_le h (hk x hx2)
      · obtain ⟨i, hi, heq, hpre, hsuf⟩ := ih hrest
        refine ⟨i + 1, by simpa using Nat.succ_le_succ hi, ?_, ?_, ?_⟩
        · simp only [insertByDeadline, if_neg h, List.take_succ_cons,
            List.drop_succ_cons, List.cons_append, heq]
        · intro x hx
          rw [List.take_succ_cons] at hx
          rcases List.mem_cons.mp hx with rfl | hx2
          · exact Nat.le_of_not_lt h
          · exact hpre x hx2
        · intro x hx
          rw [List.drop_succ_cons] at hx
          exact hsuf x hx

theorem processUpdate_some_inv_aux (tracked : List (String × Nat)) (key : String)
    (exp : Nat) (order1 : List String) (hnd1 : order1.Nodup)
    (hkey1 : key ∉ order1)
    (hof : ∀ p ∈ tracked, p.1 = key ∨ p.1 ∈ order1)
    (hmem1 : ∀ x ∈ order1, (alLookup x tracked).isSome = true)
    (hp1 : order1.Pairwise (fun a b => deadlineOf tracked a ≤ deadlineOf tracked b)) :
    EngineInv ⟨alInsert key exp tracked, insertByDeadline tracked exp key order1⟩ := by
  refine ⟨insertByDeadline_nodup hkey1 hnd1, ?_, ?_, ?_⟩
  · intro x hx
    rcases mem_insertByDeadline.mp hx with rfl | hx2
    · rw [alLookup_alInsert_self]
      rfl
    · by_cases hxk : x = key
      · subst hxk
        rw [alLookup_alInsert_self]
        rfl
      · rw [alLookup_alInsert_ne hxk]
        exact hmem1 x hx2
  · intro p hp'
    simp only [alInsert, List.mem_cons] at hp'
    rcases hp' with rfl | hp2
    · exact mem_insertByDeadline.mpr (Or.inl rfl)
    · have h1 := mem_alRemove_keys hp2
      have h2 := mem_alRemove_ne hp2
      rcases hof p h1 with hkp | ho
      · exact absurd hkp h2
      · exact mem_insertByDeadline.mpr (Or.inr ho)
  · refine insertByDeadline_pairwise tracked (alInsert key exp tracked) exp key
      order1 ?_ ?_ hp1
    · unfold deadlineOf
      rw [alLookup_alInsert_self]
      rfl
    · intro x hx
      have hxk : x ≠ key := fun hc => hkey1 (hc ▸ hx)
      unfold deadlineOf
      rw [alLookup_alInsert_ne hxk]

theorem processUpdate_inv (s : ExpirationState) (hInv : EngineInv s) (key : String)
    (e : Option Nat) : EngineInv (processUpdate s key e) := by
  obtain ⟨hnd, hmem, hkeys, hp⟩ := hInv
  cases e with
  | some exp =>
      by_cases htr : (alLookup key s.trackedKeys).isSome
      · have hres : processUpdate s key (some exp) =
            ⟨alInsert key exp s.trackedKeys,
              insertByDeadline s.trackedKeys exp key (s.expirationOrder.erase key)⟩ := by
          simp [processUpdate, htr]
        rw [hres]
        refine processUpdate_some_inv_aux s.trackedKeys key exp
          (s.expirationOrder.erase key) (hnd.erase key) ?_ ?_ ?_
          (hp.sublist (List.erase_sublist key s.expirationOrder))
        · intro hc
          exact absurd (hnd.mem_erase_iff.mp hc).1 (by simp)
        · intro p hp'
          by_cases hpk : p.1 = key
          · exact Or.inl hpk
          · exact Or.inr (hnd.mem_erase_iff.mpr ⟨hpk, hkeys p hp'⟩)
        · intro x hx
          exact hmem x (List.mem_of_mem_erase hx)
      · have hkeyord : key ∉ s.expirationOrder := fun hc => htr (hmem key hc)
        have hres : processUpdate s key (some exp) =
            ⟨alInsert key exp s.trackedKeys,
              insertByDeadline s.trackedKeys exp key s.expirationOrder⟩ := by
          simp [processUpdate, htr]
        rw [hres]
        refine processUpdate_some_inv_aux s.trackedKeys key exp
          s.expirationOrder hnd hkeyord ?_ hmem hp
        intro p hp'
        exact Or.inr (hkeys p hp')
  | none =>
      by_cases htr : (alLookup key s.trackedKeys).isSome
      · have hres : processUpdate s key none =
            ⟨alRemove key s.trackedKeys, s.expirationOrder.erase key⟩ := by
          simp [processUpdate, htr]
        rw [hres]
        refine ⟨hnd.erase key, ?_, ?_, ?_⟩
        · intro x hx
          obtain ⟨hxk, hxmem⟩ := hnd.mem_erase_iff.mp hx
          rw [alLookup_alRemove_ne hxk]
          exact hmem x hxmem
        · intro p hp'
          have h1 := mem_alRemove_keys hp'
          have h2 := mem_alRemove_ne hp'
          exact hnd.mem_erase_iff.mpr ⟨h2, hkeys p h1⟩
        · refine List.Pairwise.imp_of_mem ?_
            (hp.sublist (List.erase_sublist key s.expirationOrder))
          intro a b ha hb hab
          have hak : a ≠ key := (hnd.mem_erase_iff.mp ha).1
          have hbk : b ≠ key := (hnd.mem_erase_iff.mp hb).1
          unfold deadlineOf
          rw [alLookup_alRemove_ne hak, alLookup_alRemove_ne hbk]
          exact hab
      · have hres : processUpdate s key none = s := by
          simp [processUpdate, htr]
        rw [hres]
        exact ⟨hnd, hmem, hkeys, hp⟩

theorem popExpired_inv (now : Nat) :
    ∀ (order : List String) (tracked : List (String × Nat)),
      EngineInv ⟨tracked, order⟩ →
      EngineInv ⟨(popExpired now order tracked).2.1, (popExpired now order tracked).1⟩ := by
  intro order
  induction order with
  | nil =>
      intro tracked h
      simpa [popExpired] using h
  | cons k rest ih =>
      intro tracked h
      obtain ⟨hnd, hmem, hkeys, hp⟩ := h
      rcases List.nodup_cons.mp hnd with ⟨hknotin, hndrest⟩
      by_cases hd : deadlineOf tracked k ≤ now
      · have hres : popExpired now (k :: rest) tracked =
            ((popExpired now rest (alRemove k tracked)).1,
              (popExpired now rest (alRemove k tracked)).2.1,
              k :: (popExpired now rest (alRemove k tracked)).2.2) := by
          simp [popExpired, hd]
        rw [hres]
        apply ih
        refine ⟨hndrest, ?_, ?_, ?_⟩
        · intro x hx
          have hxk : x ≠ k := fun hc => hknotin (hc ▸ hx)
          rw [alLookup_alRemove_ne hxk]
          exact hmem x (List.mem_cons_of_mem k hx)
        · intro p hp'
          have h1 := mem_alRemove_keys hp'
          have h2 := mem_alRemove_ne hp'
          rcases List.mem_cons.mp (hkeys p h1) with hc | hmem2
          · exact absurd hc h2
          · exact hmem2
        · refine List.Pairwise.imp_of_mem ?_ (List.pairwise_cons.mp hp).2
          intro a b ha hb hab
          have hak : a ≠ k := fun hc => hknotin (hc ▸ ha)
          have hbk : b ≠ k := fun hc => hknotin (hc ▸ hb)
          unfold deadlineOf
          rw [alLookup_alRemove_ne hak, alLookup_alRemove_ne hbk]
          exact hab
      · have hres : popExpired now (k :: rest) tracked = (k :: rest, tracked, []) := by
          simp [popExpired, hd]
        rw [hres]
        exact ⟨hnd, hmem, hkeys, hp⟩

theorem timeoutPass_inv (s : ExpirationState) (hInv : EngineInv s) (now : Nat) :
    EngineInv (timeoutPass s now) :=
  popExpired_inv now s.expirationOrder s.trackedKeys hInv

theorem popExpired_order_subset (now : Nat) :
    ∀ (order : List String) (tracked : List (String × Nat)) (x : String),
      (x ∈ (popExpired now order tracked).1 → x ∈ order) ∧
      (x ∈ (popExpired now order tracked).2.2 → x ∈ order) := by
  intro order
  induction order with
  | nil =>
      intro tracked x
      simp [popExpired]
  | cons k rest ih =>
      intro tracked x
      by_cases hd : deadlineOf tracked k ≤ now
      · have hres : popExpired now (k :: rest) tracked =
            ((popExpired now rest (alRemove k tracked)).1,
              (popExpired now rest (alRemove k tracked)).2.1,
              k :: (popExpired now rest (alRemove k tracked)).2.2) := by
          simp [popExpired, hd]
        rw [hres]
        constructor
        · intro hx
          exact List.mem_cons_of_mem k ((ih (alRemove k tracked) x).1 hx)
        · intro hx
          rcases List.mem_cons.mp hx with heq | hx2
          · rw [heq]
            exact List.mem_cons_self k rest
          · exact List.mem_cons_of_mem k ((ih (alRemove k tracked) x).2 hx2)
      · have hres : popExpired now (k :: rest) tracked = (k :: rest, tracked, []) := by
          simp [popExpired, hd]
        rw [hres]
        exact ⟨fun hx => hx, by simp⟩

theorem popExpired_lookup_none (now : Nat) (x : String) :
    ∀ (order : List String) (tracked : List (String × Nat)),
      alLookup x tracked = none →
      alLookup x (popExpired now order tracked).2.1 = none := by
  intro order
  induction order with
  | nil =>
      intro tracked h
      simpa [popExpired] using h
  | cons k rest ih =>
      intro tracked h
      by_cases hd : deadlineOf tracked k ≤ now
      · have hres : popExpired now (k :: rest) tracked =
            ((popExpired now rest (alRemove k tracked)).1,
              (popExpired now rest (alRemove k tracked)).2.1,
              k :: (popExpired now rest (alRemove k tracked)).2.2) := by
          simp [popExpired, hd]
        rw [hres]
        exact ih (alRemove k tracked) (alLookup_none_alRemove k h)
      · have hres : popExpired now (k :: rest) tracked = (k :: rest, tracked, []) := by
          simp [popExpired, hd]
        rw [hres]
        exact h

theorem processUpdate_preserves_untracked (s : ExpirationState) (key : String)
    (e : Option Nat) (k : String) (hk : k ∉ s.expirationOrder)
    (hl : alLookup k s.trackedKeys = none)
    (hne : isSomeUpdateOf k (EngineEvent.update key e) = false) :
    k ∉ (processUpdate s key e).expirationOrder ∧
      alLookup k (processUpdate s key e).trackedKeys = none := by
  cases e with
  | some exp =>
      have hkey : ¬(key = k) := by
        intro hc
        subst hc
        simp [isSomeUpdateOf] at hne
      have hkne : k ≠ key := fun hc => hkey hc.symm
      have htracked : (processUpdate s key (some exp)).trackedKeys =
          alInsert key exp s.trackedKeys := rfl
      constructor
      · by_cases htr : (alLookup key s.trackedKeys).isSome
        · have hres : (processUpdate s key (some exp)).expirationOrder =
              insertByDeadline s.trackedKeys exp key (s.expirationOrder.erase key) := by
            simp [processUpdate, htr]
          rw [hres]
          intro hc
          rcases mem_insertByDeadline.mp hc with hck | hc2
          · exact hkne hck
          · exact hk (List.mem_of_mem_erase hc2)
        · have hres : (processUpdate s key (some exp)).expirationOrder =
              insertByDeadline s.trackedKeys exp key s.expirationOrder := by
            simp [processUpdate, htr]
          rw [hres]
          intro hc
          rcases mem_insertByDeadline.mp hc with hck | hc2
          · exact hkne hck
          · exact hk hc2
      · rw [htracked]
        rw [alLookup_alInsert_ne hkne]
        exact hl
  | none =>
      by_cases htr : (alLookup key s.trackedKeys).isSome
      · have hres : processUpdate s key none =
            ⟨alRemove key s.trackedKeys, s.expirationOrder.erase key⟩ := by
          simp [processUpdate, htr]
        rw [hres]
        constructor
        · intro hc
          exact hk (List.mem_of_mem_erase hc)
        · exact alLookup_none_alRemove key hl
      · have hres : processUpdate s key none = s := by
          simp [processUpdate, htr]
        rw [hres]
        exact ⟨hk, hl⟩

theorem runEngine_avoids (k : String) :
    ∀ (evs : List EngineEvent) (s : ExpirationState),
      k ∉ s.expirationOrder → alLookup k s.trackedKeys = none →
      (∀ e ∈ evs, isSomeUpdateOf k e = false) →
      k ∉ (runEngine s evs).2 ∧
        k ∉ (runEngine s evs).1.expirationOrder ∧
        alLookup k (runEngine s evs).1.trackedKeys = none := by
  intro evs
  induction evs with
  | nil =>
      intro s h1 h2 _
      exact ⟨by simp [runEngine], h1, h2⟩
  | cons e rest ih =>
      intro s h1 h2 hno
      have hnoe := hno e (List.mem_cons_self e rest)
      have hnorest : ∀ e' ∈ rest, isSomeUpdateOf k e' = false :=
        fun e' he' => hno e' (List.mem_cons_of_mem e he')
      cases e with
      | update key e' =>
          have hstep := processUpdate_preserves_untracked s key e' k h1 h2 hnoe
          have hrec := ih (processUpdate s key e') hstep.1 hstep.2 hnorest
          simp only [runEngine, engineStep]
          exact ⟨by simpa using hrec.1, hrec.2.1, hrec.2.2⟩
      | timeout now =>
          have hord : k ∉ (popExpired now s.expirationOrder s.trackedKeys).1 :=
            fun hc => h1 ((popExpired_order_subset now s.expirationOrder s.trackedKeys k).1 hc)
          have hdel : k ∉ (popExpired now s.expirationOrder s.trackedKeys).2.2 :=
            fun hc => h1 ((popExpired_order_subset now s.expirationOrder s.trackedKeys k).2 hc)
          have hlook := popExpired_lookup_none now k s.expirationOrder s.trackedKeys h2
          have hrec := ih ⟨(popExpired now s.expirationOrder s.trackedKeys).2.1,
            (popExpired now s.expirationOrder s.trackedKeys).1⟩ hord hlook hnorest
          simp only [runEngine, engineStep]
          refine ⟨?_, hrec.2.1, hrec.2.2⟩
          simp only [List.mem_append]
          rintro (hc | hc)
          · exact hdel hc
          · exact hrec.1 hc

end KV

/-! ## C6 and C7: expiration engine -/

namespace KV

/-- The order deque after the removal step of keyvalue.rs lines 497-513: an
update for an already-tracked key first drops the key's old position. -/
def orderWithoutKey (s : ExpirationState) (key : String) : List String :=
  if (alLookup key s.trackedKeys).isSome then s.expirationOrder.erase key
  else s.expirationOrder

end KV

/-- C6: processing any `ExpirationUpdate` and any timeout pass preserves the
engine invariant — `expiration_order` holds exactly the keys of
`tracked_keys`, without duplicates, in non-decreasing deadline order; an
update with `expiration = None` removes the key from both structures; and an
update with a deadline first removes the key's old position, then inserts it
at the first position whose deadline strictly exceeds the new one, so a key
whose deadline ties existing ones is placed after them. -/
theorem c6_expiration_invariant (s : KV.ExpirationState) (hInv : KV.EngineInv s)
    (key : String) (e : Option Nat) (now t : Nat) :
    KV.EngineInv (KV.processUpdate s key e) ∧
      KV.EngineInv (KV.timeoutPass s now) ∧
      (e = none → KV.alLookup key (KV.processUpdate s key e).trackedKeys = none ∧
        key ∉ (KV.processUpdate s key e).expirationOrder) ∧
      (e = some t →
        ∃ i, (KV.processUpdate s key e).expirationOrder =
            (KV.orderWithoutKey s key).take i ++
              key :: (KV.orderWithoutKey s key).drop i ∧
          (∀ x ∈ (KV.orderWithoutKey s key).take i,
            KV.deadlineOf s.trackedKeys x ≤ t) ∧
          (∀ x ∈ (KV.orderWithoutKey s key).drop i,
            t < KV.deadlineOf s.trackedKeys x)) := by
  obtain ⟨hnd, hmem, hkeys, hp⟩ := hInv
  refine ⟨KV.processUpdate_inv s ⟨hnd, hmem, hkeys, hp⟩ key e,
    KV.timeoutPass_inv s ⟨hnd, hmem, hkeys, hp⟩ now, ?_, ?_⟩
  · rintro rfl
    by_cases htr : (KV.alLookup key s.trackedKeys).isSome
    · have hres : KV.processUpdate s key none =
          ⟨KV.alRemove key s.trackedKeys, s.expirationOrder.erase key⟩ := by
        simp [KV.processUpdate, htr]
      rw [hres]
      refine ⟨KV.alLookup_alRemove_self key s.trackedKeys, ?_⟩
      intro hc
      exact absurd (hnd.mem_erase_iff.mp hc).1 (by simp)
    · have hres : KV.processUpdate s key none = s := by
        simp [KV.processUpdate, htr]
      rw [hres]
      refine ⟨Option.not_isSome_iff_eq_none.mp htr, ?_⟩
      intro hc
      exact htr (hmem key hc)
  · rintro rfl
    have hp1 : (KV.orderWithoutKey s key).Pairwise
        (fun a b => KV.deadlineOf s.trackedKeys a ≤ KV.deadlineOf s.trackedKeys b) := by
      unfold KV.orderWithoutKey
      split
      · exact hp.sublist (List.erase_sublist key s.expirationOrder)
      · exact hp
    have hres : (KV.processUpdate s key (some t)).expirationOrder =
        KV.insertByDeadline s.trackedKeys t key (KV.orderWithoutKey s key) := by
      unfold KV.orderWithoutKey
      by_cases htr : (KV.alLookup key s.trackedKeys).isSome <;>
        simp [KV.processUpdate, htr]
    obtain ⟨i, _, heq, hpre, hsuf⟩ :=
      KV.insertByDeadline_split s.trackedKeys t key (KV.orderWithoutKey s key) hp1
    exact ⟨i, by rw [hres, heq], hpre, hsuf⟩

/-- C6 witness: the invariant theorem at a concrete tracked state, a fresh
key whose deadline ties the existing one, and a timeout pass. -/
theorem c6_expiration_witness :
    KV.EngineInv (KV.processUpdate ⟨[("a", 5)], ["a"]⟩ "b" (some 5)) ∧
      KV.EngineInv (KV.timeoutPass ⟨[("a", 5)], ["a"]⟩ 5) ∧
      ((some 5 : Option Nat) = none →
        KV.alLookup "b" (KV.processUpdate ⟨[("a", 5)], ["a"]⟩ "b" (some 5)).trackedKeys =
            none ∧
          "b" ∉ (KV.processUpdate ⟨[("a", 5)], ["a"]⟩ "b" (some 5)).expirationOrder) ∧
      ((some 5 : Option Nat) = some 5 →
        ∃ i, (KV.processUpdate ⟨[("a", 5)], ["a"]⟩ "b" (some 5)).expirationOrder =
            (KV.orderWithoutKey ⟨[("a", 5)], ["a"]⟩ "b").take i ++
              "b" :: (KV.orderWithoutKey ⟨[("a", 5)], ["a"]⟩ "b").drop i ∧
          (∀ x ∈ (KV.orderWithoutKey ⟨[("a", 5)], ["a"]⟩ "b").take i,
            KV.deadlineOf [("a", 5)] x ≤ 5) ∧
          (∀ x ∈ (KV.orderWithoutKey ⟨[("a", 5)], ["a"]⟩ "b").drop i,
            5 < KV.deadlineOf [("a", 5)] x)) :=
  c6_expiration_invariant ⟨[("a", 5)], ["a"]⟩ (by decide) "b" (some 5) 5 5

/-- C7: once the engine has integrated an update that set key `k`'s
expiration and then one clearing it to `None`, and no later event re-adds an
expiration for `k`, no later processing — updates for other keys or timeout
passes — ever deletes `k` from the `kv` tree. -/
theorem c7_expiration_cancel (s : KV.ExpirationState) (hInv : KV.EngineInv s)
    (k : String) (t : Nat) (evs : List KV.EngineEvent)
    (hno : ∀ e ∈ evs, KV.isSomeUpdateOf k e = false) :
    k ∉ (KV.runEngine (KV.processUpdate (KV.processUpdate s k (some t)) k none) evs).2 := by
  have hInv1 : KV.EngineInv (KV.processUpdate s k (some t)) :=
    KV.processUpdate_inv s hInv k (some t)
  obtain ⟨hnd1, _, _, _⟩ := hInv1
  have htracked1 : (KV.processUpdate s k (some t)).trackedKeys =
      KV.alInsert k t s.trackedKeys := rfl
  have htr : (KV.alLookup k (KV.processUpdate s k (some t)).trackedKeys).isSome = true := by
    rw [htracked1, KV.alLookup_alInsert_self]
    rfl
  have hres : KV.processUpdate (KV.processUpdate s k (some t)) k none =
      ⟨KV.alRemove k (KV.processUpdate s k (some t)).trackedKeys,
        (KV.processUpdate s k (some t)).expirationOrder.erase k⟩ := by
    simp only [KV.processUpdate]
    rw [if_pos (htracked1 ▸ htr)]
  rw [hres]
  have hord : k ∉ (KV.processUpdate s k (some t)).expirationOrder.erase k := by
    intro hc
    exact absurd (hnd1.mem_erase_iff.mp hc).1 (by simp)
  exact (KV.runEngine_avoids k evs
    ⟨KV.alRemove k (KV.processUpdate s k (some t)).trackedKeys,
      (KV.processUpdate s k (some t)).expirationOrder.erase k⟩
    hord (KV.alLookup_alRemove_self k _) hno).1

/-- C7 witness: a set-then-cancel for key `a` followed by a late timeout
pass never deletes `a`. -/
theorem c7_expiration_witness :
    "a" ∉ (KV.runEngine
        (KV.processUpdate (KV.processUpdate ⟨[], []⟩ "a" (some 1)) "a" none)
        [KV.EngineEvent.timeout 5]).2 :=
  c7_expiration_cancel ⟨[], []⟩ (by decide) "a" 1 [KV.EngineEvent.timeout 5] (by decide)
